import Mathlib

/-! # crypto.h : `decryptBuffer`

A shallow embedding of the single function of `crypto.h`

    void decryptBuffer(uint8_t* buf, size_t len) {
        uint32_t chipId = ESP.getChipId();
        for (size_t i = 0; i < len; i++) {
            buf[i] ^= (chipId & 0xFF);
        }
    }

Machine integers are natural numbers with explicit reductions modulo `2^w`.
The memory behind `buf` is a list of bytes; an access outside that list is a
fault of its own, and the loop is run with an explicit iteration budget, so
neither memory safety nor termination is assumed by the model.
-/

namespace Crypto

/-- Number of values of a `uint8_t`. -/
def UINT8_RANGE : Nat := 2 ^ 8

/-- Number of values of a `uint32_t`. -/
def UINT32_RANGE : Nat := 2 ^ 32

/-- Number of values of a `size_t` (32 bits on the ESP8266). -/
def SIZE_RANGE : Nat := 2 ^ 32

/-- The compound assignment `b ^= (chipId & 0xFF)` on a `uint8_t` lvalue holding `b`:
the mask and the exclusive or are computed in `uint32_t`, and the store converts the
32-bit result back to `uint8_t`. The value returned is the byte stored. -/
def xorAssign (b chipId : Nat) : Nat :=
  ((b ^^^ (chipId &&& 0xFF)) % UINT32_RANGE) % UINT8_RANGE

/-- State of the `for` loop: the counter `i`, the memory behind `buf`, and the record
of the indices of `buf` that were accessed so far, oldest first. The record is
bookkeeping of the model; the loop never reads it. -/
structure LoopState where
  i : Nat
  buf : List Nat
  accessed : List Nat
deriving DecidableEq

/-- How a run of `decryptBuffer` ends. -/
inductive Outcome where
  /-- The loop condition `i < len` became false; the function returns. -/
  | done (s : LoopState)
  /-- The loop body accessed `buf[i]` outside the memory of the buffer. -/
  | outOfBounds (i : Nat)
  /-- The iteration budget ran out with the loop condition still true. -/
  | outOfFuel
deriving DecidableEq

/-- The loop `for (...; i < len; i++) { buf[i] ^= (chipId & 0xFF); }` run from state `s`
for at most `fuel` iterations. The increment `i++` wraps at the width of `size_t`. -/
def loop (chipId len : Nat) : Nat → LoopState → Outcome
  | 0, s => if s.i < len then .outOfFuel else .done s
  | fuel + 1, s =>
    if s.i < len then
      match s.buf[s.i]? with
      | none => .outOfBounds s.i
      | some b =>
        loop chipId len fuel
          { i := (s.i + 1) % SIZE_RANGE
            buf := s.buf.set s.i (xorAssign b chipId)
            accessed := s.accessed ++ [s.i] }
    else .done s

/-- The function `decryptBuffer(buf, len)`. The value returned by `ESP.getChipId()` is
the argument `espChipId`; it is stored in the `uint32_t` variable `chipId`. The loop
starts at `i = 0` and is given a budget of `fuel` iterations. -/
def decryptBuffer (fuel espChipId : Nat) (buf : List Nat) (len : Nat) : Outcome :=
  let chipId := espChipId % UINT32_RANGE
  loop chipId len fuel { i := 0, buf := buf, accessed := [] }

/-- Every element of the buffer is a `uint8_t` value. -/
def IsBytes (buf : List Nat) : Prop := ∀ b ∈ buf, b < UINT8_RANGE

instance (buf : List Nat) : Decidable (IsBytes buf) :=
  inferInstanceAs (Decidable (∀ b ∈ buf, b < UINT8_RANGE))

/-! ## Arithmetic of the compound assignment -/

theorem and_ff_lt (c : Nat) : c &&& 0xFF < UINT8_RANGE := by
  have h : c &&& 0xFF ≤ 0xFF := Nat.and_le_right
  unfold UINT8_RANGE
  omega

theorem xorAssign_lt (b c : Nat) : xorAssign b c < UINT8_RANGE := by
  unfold xorAssign
  exact Nat.mod_lt _ (by decide)

theorem xor_and_ff_lt (b c : Nat) (hb : b < UINT8_RANGE) :
    b ^^^ (c &&& 0xFF) < UINT8_RANGE :=
  Nat.xor_lt_two_pow hb (and_ff_lt c)

theorem xorAssign_eq (b c : Nat) (hb : b < UINT8_RANGE) :
    xorAssign b c = b ^^^ (c &&& 0xFF) := by
  have h := xor_and_ff_lt b c hb
  unfold xorAssign
  unfold UINT8_RANGE at h
  unfold UINT8_RANGE UINT32_RANGE
  have h32 : b ^^^ (c &&& 0xFF) < 2 ^ 32 := by omega
  rw [Nat.mod_eq_of_lt h32, Nat.mod_eq_of_lt h]

theorem xorAssign_congr (b c1 c2 : Nat) (h : c1 &&& 0xFF = c2 &&& 0xFF) :
    xorAssign b c1 = xorAssign b c2 := by
  unfold xorAssign
  rw [h]

theorem mod_uint32_and_ff (c : Nat) : (c % UINT32_RANGE) &&& 0xFF = c &&& 0xFF := by
  have e : (0xFF : Nat) = 2 ^ 8 - 1 := by decide
  unfold UINT32_RANGE
  rw [e, Nat.and_pow_two_sub_one_eq_mod, Nat.and_pow_two_sub_one_eq_mod]
  exact Nat.mod_mod_of_dvd c (by decide)

theorem xorAssign_xorAssign (b c : Nat) (hb : b < UINT8_RANGE) :
    xorAssign (xorAssign b c) c = b := by
  rw [xorAssign_eq (xorAssign b c) c (xorAssign_lt b c), xorAssign_eq b c hb,
    Nat.xor_assoc, Nat.xor_self, Nat.xor_zero]

theorem xorAssign_zero_key (b c : Nat) (hb : b < UINT8_RANGE) (hc : c &&& 0xFF = 0) :
    xorAssign b c = b := by
  rw [xorAssign_eq b c hb, hc, Nat.xor_zero]

/-! ## The loop -/

/-- Invariant-style description of a run of the loop from a state whose counter is at most
`len`, on a buffer of at least `len` bytes, with a budget covering the remaining
iterations: the run ends normally with the counter at `len`, the indices `s.i .. len-1`
appended to the access record in increasing order, each of these bytes passed once
through `xorAssign`, and every other byte as it was. -/
theorem loop_spec (chipId len : Nat) (hlen : len < SIZE_RANGE) :
    ∀ (fuel : Nat) (s : LoopState), s.i ≤ len → len ≤ s.buf.length → len - s.i ≤ fuel →
      ∃ out, loop chipId len fuel s
          = .done ⟨len, out, s.accessed ++ List.range' s.i (len - s.i)⟩
        ∧ out.length = s.buf.length
        ∧ (∀ j, s.i ≤ j → j < len →
            out[j]? = (s.buf[j]?).map (fun b => xorAssign b chipId))
        ∧ (∀ j, (j < s.i ∨ len ≤ j) → out[j]? = s.buf[j]?) := by
  intro fuel
  induction fuel with
  | zero =>
    rintro ⟨i, buf, acc⟩ hi _ hf
    simp only [] at hi hf ⊢
    have e : i = len := by omega
    subst e
    refine ⟨buf, ?_, rfl, ?_, ?_⟩
    · simp [loop]
    · intro j h1 h2; omega
    · intro j _; rfl
  | succ fuel ih =>
    intro s hi hb hf
    by_cases hlt : s.i < len
    · have hib : s.i < s.buf.length := by omega
      have hwrap : (s.i + 1) % SIZE_RANGE = s.i + 1 := Nat.mod_eq_of_lt (by omega)
      obtain ⟨out, hrun, hlen', hin, hout⟩ :=
        ih { i := s.i + 1
             buf := s.buf.set s.i (xorAssign s.buf[s.i] chipId)
             accessed := s.accessed ++ [s.i] }
          (by simpa using hlt) (by simpa using hb) (by simp only []; omega)
      simp only [List.length_set] at hlen' hin hout
      refine ⟨out, ?_, hlen', ?_, ?_⟩
      · have hstep : len - s.i = (len - (s.i + 1)) + 1 := by omega
        rw [loop, if_pos hlt]
        simp only [List.getElem?_eq_getElem hib, hwrap]
        rw [hrun, hstep, List.range'_succ]
        simp
      · intro j h1 h2
        by_cases hj : j = s.i
        · rw [hj, hout s.i (Or.inl (Nat.lt_succ_self _))]
          simp [List.getElem?_eq_getElem hib, List.getElem?_set, hib]
        · rw [hin j (by omega) h2, List.getElem?_set_ne (fun h => hj h.symm)]
      · intro j hj
        have hne : s.i ≠ j := by omega
        rw [hout j (by omega), List.getElem?_set_ne hne]
    · obtain ⟨i, buf, acc⟩ := s
      simp only [] at hi hlt ⊢
      have e : i = len := by omega
      subst e
      refine ⟨buf, ?_, rfl, ?_, ?_⟩
      · simp [loop]
      · intro j h1 h2; omega
      · intro j _; rfl

/-- The loop body sees the chip identifier only through `chipId & 0xFF`. -/
theorem loop_congr (c1 c2 len : Nat) (h : c1 &&& 0xFF = c2 &&& 0xFF) :
    ∀ (fuel : Nat) (s : LoopState), loop c1 len fuel s = loop c2 len fuel s := by
  intro fuel
  induction fuel with
  | zero => intro s; simp [loop]
  | succ fuel ih =>
    intro s
    rw [loop, loop]
    split
    · split
      · rfl
      · rename_i b _
        rw [xorAssign_congr b c1 c2 h]
        exact ih _
    · rfl

/-- Once the loop condition is false the loop returns, whatever the budget. -/
theorem loop_done (chipId len fuel : Nat) (s : LoopState) (h : ¬ s.i < len) :
    loop chipId len fuel s = .done s := by
  cases fuel <;> simp [loop, h]

/-- A run that ends normally ends the same way under any larger budget. -/
theorem loop_fuel_mono (chipId len : Nat) :
    ∀ (fuel : Nat) (s t : LoopState), loop chipId len fuel s = .done t →
      ∀ k, loop chipId len (fuel + k) s = .done t := by
  intro fuel
  induction fuel with
  | zero =>
    intro s t h k
    by_cases hlt : s.i < len
    · simp [loop, hlt] at h
    · rw [loop_done chipId len 0 s hlt] at h
      rw [loop_done chipId len (0 + k) s hlt, h]
  | succ fuel ih =>
    intro s t h k
    have e : fuel + 1 + k = (fuel + k) + 1 := by omega
    rw [e, loop]
    rw [loop] at h
    split
    · rename_i hlt
      rw [if_pos hlt] at h
      split
      · rename_i hnone
        rw [hnone] at h
        cases h
      · rename_i b hsome
        rw [hsome] at h
        exact ih _ t h k
    · rename_i hlt
      rw [if_neg hlt] at h
      exact h

/-- With fewer iterations in the budget than remain to be run, a run on a valid buffer
exhausts the budget. -/
theorem loop_short (chipId len : Nat) (hlen : len < SIZE_RANGE) :
    ∀ (fuel : Nat) (s : LoopState), len ≤ s.buf.length → fuel < len - s.i →
      loop chipId len fuel s = .outOfFuel := by
  intro fuel
  induction fuel with
  | zero =>
    intro s _ hf
    have hlt : s.i < len := by omega
    simp [loop, hlt]
  | succ fuel ih =>
    intro s hb hf
    have hlt : s.i < len := by omega
    have hib : s.i < s.buf.length := by omega
    have hwrap : (s.i + 1) % SIZE_RANGE = s.i + 1 := Nat.mod_eq_of_lt (by omega)
    rw [loop, if_pos hlt]
    simp only [List.getElem?_eq_getElem hib, hwrap]
    exact ih _ (by simpa using hb) (by simp only []; omega)

/-- Closed description of `decryptBuffer` on a valid buffer and length, with a budget of
at least `len` iterations. -/
theorem decryptBuffer_spec (fuel c : Nat) (buf : List Nat) (len : Nat)
    (hlen : len < SIZE_RANGE) (hb : len ≤ buf.length) (hf : len ≤ fuel) :
    ∃ out, decryptBuffer fuel c buf len = .done ⟨len, out, List.range len⟩
      ∧ out.length = buf.length
      ∧ (∀ j, j < len → out[j]? = (buf[j]?).map (fun b => xorAssign b c))
      ∧ (∀ j, len ≤ j → out[j]? = buf[j]?) := by
  obtain ⟨out, hrun, hl, hin, hout⟩ :=
    loop_spec c len hlen fuel { i := 0, buf := buf, accessed := [] }
      (Nat.zero_le _) hb (by simpa using hf)
  refine ⟨out, ?_, hl, fun j hj => hin j (Nat.zero_le _) hj, fun j hj => hout j (Or.inr hj)⟩
  unfold decryptBuffer
  rw [loop_congr (c % UINT32_RANGE) c len (mod_uint32_and_ff c), hrun]
  simp [List.range_eq_range']

/-- The outcome of `decryptBuffer` depends on the chip identifier only through
`chipId & 0xFF`. -/
theorem decryptBuffer_congr (fuel c1 c2 : Nat) (buf : List Nat) (len : Nat)
    (h : c1 &&& 0xFF = c2 &&& 0xFF) :
    decryptBuffer fuel c1 buf len = decryptBuffer fuel c2 buf len := by
  unfold decryptBuffer
  apply loop_congr
  rw [mod_uint32_and_ff, mod_uint32_and_ff, h]

/-- A normal end of `decryptBuffer` is kept under any larger budget. -/
theorem decryptBuffer_fuel_mono (fuel fuel2 c : Nat) (buf : List Nat) (len : Nat)
    (s : LoopState) (h : decryptBuffer fuel c buf len = .done s) (hf : fuel ≤ fuel2) :
    decryptBuffer fuel2 c buf len = .done s := by
  obtain ⟨k, rfl⟩ : ∃ k, fuel2 = fuel + k := ⟨fuel2 - fuel, by omega⟩
  exact loop_fuel_mono _ len fuel _ s h k

/-- With a budget below `len`, `decryptBuffer` on a valid buffer exhausts it. -/
theorem decryptBuffer_short (fuel c : Nat) (buf : List Nat) (len : Nat)
    (hlen : len < SIZE_RANGE) (hb : len ≤ buf.length) (hf : fuel < len) :
    decryptBuffer fuel c buf len = .outOfFuel :=
  loop_short _ len hlen fuel _ hb (by simpa using hf)

/-! ## Two runs in a row -/

theorem and_ff_xor (c1 c2 : Nat) :
    (c1 ^^^ c2) &&& 0xFF = (c1 &&& 0xFF) ^^^ (c2 &&& 0xFF) :=
  Nat.and_xor_distrib_right

/-- Two compound assignments in a row, on a byte, act as one with the XOR of the two chip
identifiers. -/
theorem xorAssign_comp (b c1 c2 : Nat) (hb : b < UINT8_RANGE) :
    xorAssign (xorAssign b c1) c2 = xorAssign b (c1 ^^^ c2) := by
  rw [xorAssign_eq (xorAssign b c1) c2 (xorAssign_lt b c1), xorAssign_eq b c1 hb,
    xorAssign_eq b (c1 ^^^ c2) hb, and_ff_xor, Nat.xor_assoc]

/-- Two compound assignments in a row give the byte back exactly when the two 8-bit keys
are equal. -/
theorem xorAssign_twice_eq_iff (b c1 c2 : Nat) (hb : b < UINT8_RANGE) :
    xorAssign (xorAssign b c1) c2 = b ↔ c1 &&& 0xFF = c2 &&& 0xFF := by
  rw [xorAssign_comp b c1 c2 hb, xorAssign_eq b (c1 ^^^ c2) hb, and_ff_xor]
  constructor
  · intro h
    have h0 : b ^^^ ((c1 &&& 0xFF) ^^^ (c2 &&& 0xFF)) = b ^^^ 0 := by
      rw [h, Nat.xor_zero]
    exact Nat.xor_eq_zero.mp (Nat.xor_right_injective h0)
  · intro h
    rw [h, Nat.xor_self, Nat.xor_zero]

/-- Closed description of two runs of `decryptBuffer` in a row over the same length, on a
valid buffer, each with a budget of at least `len` iterations. -/
theorem decryptBuffer_twice_spec (fuel1 fuel2 c1 c2 : Nat) (buf : List Nat) (len : Nat)
    (hlen : len < SIZE_RANGE) (hb : len ≤ buf.length)
    (hf1 : len ≤ fuel1) (hf2 : len ≤ fuel2) :
    ∃ out1 out2, decryptBuffer fuel1 c1 buf len = .done ⟨len, out1, List.range len⟩
      ∧ decryptBuffer fuel2 c2 out1 len = .done ⟨len, out2, List.range len⟩
      ∧ out2.length = buf.length
      ∧ (∀ j, j < len →
          out2[j]? = (buf[j]?).map (fun b => xorAssign (xorAssign b c1) c2))
      ∧ (∀ j, len ≤ j → out2[j]? = buf[j]?) := by
  obtain ⟨out1, hrun1, hl1, hin1, hout1⟩ := decryptBuffer_spec fuel1 c1 buf len hlen hb hf1
  obtain ⟨out2, hrun2, hl2, hin2, hout2⟩ :=
    decryptBuffer_spec fuel2 c2 out1 len hlen (by omega) hf2
  refine ⟨out1, out2, hrun1, hrun2, by omega, ?_, ?_⟩
  · intro j hj
    rw [hin2 j hj, hin1 j hj, Option.map_map]
    rfl
  · intro j hj
    rw [hout2 j hj, hout1 j hj]

/-- A run of `decryptBuffer` on a valid buffer of bytes leaves a buffer of bytes. -/
theorem decryptBuffer_isBytes (fuel c : Nat) (buf : List Nat) (len : Nat)
    (hbytes : IsBytes buf) (hlen : len < SIZE_RANGE) (hb : len ≤ buf.length)
    (hf : len ≤ fuel) :
    ∃ out, decryptBuffer fuel c buf len = .done ⟨len, out, List.range len⟩
      ∧ out.length = buf.length ∧ IsBytes out := by
  obtain ⟨out, hrun, hl, hin, hout⟩ := decryptBuffer_spec fuel c buf len hlen hb hf
  refine ⟨out, hrun, hl, ?_⟩
  intro x hx
  obtain ⟨j, hj⟩ := List.mem_iff_getElem?.mp hx
  by_cases hjl : j < len
  · have hjb : j < buf.length := by omega
    rw [hin j hjl, List.getElem?_eq_getElem hjb] at hj
    simp only [Option.map_some', Option.some.injEq] at hj
    rw [← hj]
    exact xorAssign_lt _ c
  · rw [hout j (by omega)] at hj
    exact hbytes x (List.mem_iff_getElem?.mpr ⟨j, hj⟩)

/-- On a valid buffer of bytes, a run of `decryptBuffer` leaves a buffer of bytes of the
same length from which a second run with the same chip identifier gives the first
buffer back. -/
theorem decryptBuffer_twice_same (fuel1 fuel2 c : Nat) (buf : List Nat) (len : Nat)
    (hbytes : IsBytes buf) (hlen : len < SIZE_RANGE) (hb : len ≤ buf.length)
    (hf1 : len ≤ fuel1) (hf2 : len ≤ fuel2) :
    ∃ out, decryptBuffer fuel1 c buf len = .done ⟨len, out, List.range len⟩
      ∧ out.length = buf.length ∧ IsBytes out
      ∧ decryptBuffer fuel2 c out len = .done ⟨len, buf, List.range len⟩ := by
  obtain ⟨out, hrun, hl, hby⟩ := decryptBuffer_isBytes fuel1 c buf len hbytes hlen hb hf1
  obtain ⟨out1, out2, hrun1, hrun2, _, hin, hout⟩ :=
    decryptBuffer_twice_spec fuel1 fuel2 c c buf len hlen hb hf1 hf2
  have e1 : out1 = out := by
    rw [hrun] at hrun1
    injection hrun1 with h
    injection h with _ h _
    exact h.symm
  have e2 : out2 = buf := by
    apply List.ext_getElem?
    intro j
    by_cases hj : j < len
    · have hjb : j < buf.length := by omega
      have hbyte : buf[j] < UINT8_RANGE := hbytes _ (List.getElem_mem hjb)
      rw [hin j hj, List.getElem?_eq_getElem hjb]
      simp [xorAssign_xorAssign _ c hbyte]
    · rw [hout j (by omega)]
  rw [e1, e2] at hrun2
  exact ⟨out, hrun, hl, hby, hrun2⟩

/-! ## The claims -/

/-- C1: on a buffer of bytes, for a length `len` within the buffer and a budget of at
least `len` iterations, `decryptBuffer` returns, and for every index `i < len` the byte
at `i` afterwards is the byte stored by the compound assignment, which equals the
original byte at `i` XOR-ed with `c AND 0xFF` and is an 8-bit value: the reduction of
the 32-bit intermediate to 8 bits changes nothing. -/
theorem decryptBuffer_byte_xor (fuel c : Nat) (buf : List Nat) (len i : Nat)
    (hbytes : IsBytes buf) (hlen : len < SIZE_RANGE) (hb : len ≤ buf.length)
    (hf : len ≤ fuel) (hi : i < len) :
    ∃ s b, decryptBuffer fuel c buf len = .done s
      ∧ buf[i]? = some b
      ∧ s.buf[i]? = some (xorAssign b c)
      ∧ xorAssign b c = b ^^^ (c &&& 0xFF)
      ∧ b ^^^ (c &&& 0xFF) < UINT8_RANGE := by
  obtain ⟨out, hrun, _, hin, _⟩ := decryptBuffer_spec fuel c buf len hlen hb hf
  have hib : i < buf.length := by omega
  have hbyte : buf[i] < UINT8_RANGE := hbytes _ (List.getElem_mem hib)
  refine ⟨_, buf[i], hrun, List.getElem?_eq_getElem hib, ?_, xorAssign_eq _ c hbyte,
    xor_and_ff_lt _ c hbyte⟩
  simp only []
  rw [hin i hi, List.getElem?_eq_getElem hib]
  rfl

theorem decryptBuffer_byte_xor_witness :
    IsBytes [0x41, 0x42, 0x43] ∧ 2 < SIZE_RANGE ∧ 2 ≤ [0x41, 0x42, 0x43].length
      ∧ 2 ≤ 5 ∧ 1 < 2
      ∧ ∃ s b, decryptBuffer 5 0x12AB34FF [0x41, 0x42, 0x43] 2 = .done s
          ∧ [0x41, 0x42, 0x43][1]? = some b
          ∧ s.buf[1]? = some (xorAssign b 0x12AB34FF)
          ∧ xorAssign b 0x12AB34FF = b ^^^ (0x12AB34FF &&& 0xFF)
          ∧ b ^^^ (0x12AB34FF &&& 0xFF) < UINT8_RANGE :=
  ⟨by decide, by decide, by decide, by decide, by decide,
    decryptBuffer_byte_xor 5 0x12AB34FF [0x41, 0x42, 0x43] 2 1
      (by decide) (by decide) (by decide) (by decide) (by decide)⟩

/-- C2: on a buffer of bytes, running `decryptBuffer` twice over the same length with the
same chip identifier (each run with a budget of at least `len` iterations) returns both
times and leaves the buffer exactly as it was before the first run. -/
theorem decryptBuffer_involutive (fuel1 fuel2 c : Nat) (buf : List Nat) (len : Nat)
    (hbytes : IsBytes buf) (hlen : len < SIZE_RANGE) (hb : len ≤ buf.length)
    (hf1 : len ≤ fuel1) (hf2 : len ≤ fuel2) :
    ∃ s1 s2, decryptBuffer fuel1 c buf len = .done s1
      ∧ decryptBuffer fuel2 c s1.buf len = .done s2
      ∧ s2.buf = buf := by
  obtain ⟨out1, hrun1, hl1, hin1, hout1⟩ := decryptBuffer_spec fuel1 c buf len hlen hb hf1
  obtain ⟨out2, hrun2, _, hin2, hout2⟩ :=
    decryptBuffer_spec fuel2 c out1 len hlen (by omega) hf2
  refine ⟨_, _, hrun1, hrun2, ?_⟩
  simp only []
  apply List.ext_getElem?
  intro j
  by_cases hj : j < len
  · have hjb : j < buf.length := by omega
    have hbyte : buf[j] < UINT8_RANGE := hbytes _ (List.getElem_mem hjb)
    rw [hin2 j hj, hin1 j hj, List.getElem?_eq_getElem hjb]
    simp [xorAssign_xorAssign _ c hbyte]
  · rw [hout2 j (by omega), hout1 j (by omega)]

theorem decryptBuffer_involutive_witness :
    IsBytes [0x00, 0x7F, 0xFF] ∧ 3 < SIZE_RANGE ∧ 3 ≤ [0x00, 0x7F, 0xFF].length
      ∧ 3 ≤ 3 ∧ 3 ≤ 4
      ∧ ∃ s1 s2, decryptBuffer 3 0xA5 [0x00, 0x7F, 0xFF] 3 = .done s1
          ∧ decryptBuffer 4 0xA5 s1.buf 3 = .done s2
          ∧ s2.buf = [0x00, 0x7F, 0xFF] :=
  ⟨by decide, by decide, by decide, by decide, by decide,
    decryptBuffer_involutive 3 4 0xA5 [0x00, 0x7F, 0xFF] 3
      (by decide) (by decide) (by decide) (by decide) (by decide)⟩

/-- C3: for a length within the buffer and a budget of at least `len` iterations,
`decryptBuffer` returns and the buffer afterwards has the length it had before. -/
theorem decryptBuffer_length (fuel c : Nat) (buf : List Nat) (len : Nat)
    (hlen : len < SIZE_RANGE) (hb : len ≤ buf.length) (hf : len ≤ fuel) :
    ∃ s, decryptBuffer fuel c buf len = .done s ∧ s.buf.length = buf.length := by
  obtain ⟨out, hrun, hl, _, _⟩ := decryptBuffer_spec fuel c buf len hlen hb hf
  exact ⟨_, hrun, hl⟩

theorem decryptBuffer_length_witness :
    4 < SIZE_RANGE ∧ 4 ≤ [1, 2, 3, 4].length ∧ 4 ≤ 4
      ∧ ∃ s, decryptBuffer 4 0x5A [1, 2, 3, 4] 4 = .done s
          ∧ s.buf.length = [1, 2, 3, 4].length :=
  ⟨by decide, by decide, by decide,
    decryptBuffer_length 4 0x5A [1, 2, 3, 4] 4 (by decide) (by decide) (by decide)⟩

/-- C4: two chip identifiers with the same low 8 bits give the same outcome of
`decryptBuffer` on every buffer, length and budget; and for a length within the buffer
and a budget of at least `len` iterations both runs return with one and the same
buffer. -/
theorem decryptBuffer_low8_only (c1 c2 : Nat) (buf : List Nat) (len : Nat)
    (h : c1 &&& 0xFF = c2 &&& 0xFF) :
    (∀ fuel, decryptBuffer fuel c1 buf len = decryptBuffer fuel c2 buf len)
      ∧ (len < SIZE_RANGE → len ≤ buf.length → ∀ fuel, len ≤ fuel →
          ∃ s, decryptBuffer fuel c1 buf len = .done s
            ∧ decryptBuffer fuel c2 buf len = .done s) := by
  refine ⟨fun fuel => decryptBuffer_congr fuel c1 c2 buf len h, ?_⟩
  intro hlen hb fuel hf
  obtain ⟨out, hrun, _⟩ := decryptBuffer_spec fuel c1 buf len hlen hb hf
  exact ⟨_, hrun, (decryptBuffer_congr fuel c1 c2 buf len h) ▸ hrun⟩

theorem decryptBuffer_low8_only_witness :
    (0x00C0FFEE &&& 0xFF = 0xDEADBEEE &&& 0xFF)
      ∧ (∀ fuel, decryptBuffer fuel 0x00C0FFEE [0x10, 0x20] 2
          = decryptBuffer fuel 0xDEADBEEE [0x10, 0x20] 2)
      ∧ (2 < SIZE_RANGE → 2 ≤ [0x10, 0x20].length → ∀ fuel, 2 ≤ fuel →
          ∃ s, decryptBuffer fuel 0x00C0FFEE [0x10, 0x20] 2 = .done s
            ∧ decryptBuffer fuel 0xDEADBEEE [0x10, 0x20] 2 = .done s) :=
  ⟨by decide, decryptBuffer_low8_only 0x00C0FFEE 0xDEADBEEE [0x10, 0x20] 2 (by decide)⟩

/-- C5: with a chip identifier whose low 8 bits are all zero (key 0), `decryptBuffer` on
a buffer of bytes, for a length within the buffer and a budget of at least `len`
iterations, returns and leaves the buffer unchanged. -/
theorem decryptBuffer_zero_key (fuel c : Nat) (buf : List Nat) (len : Nat)
    (hc : c &&& 0xFF = 0) (hbytes : IsBytes buf) (hlen : len < SIZE_RANGE)
    (hb : len ≤ buf.length) (hf : len ≤ fuel) :
    ∃ s, decryptBuffer fuel c buf len = .done s ∧ s.buf = buf := by
  obtain ⟨out, hrun, _, hin, hout⟩ := decryptBuffer_spec fuel c buf len hlen hb hf
  refine ⟨_, hrun, ?_⟩
  simp only []
  apply List.ext_getElem?
  intro j
  by_cases hj : j < len
  · have hjb : j < buf.length := by omega
    have hbyte : buf[j] < UINT8_RANGE := hbytes _ (List.getElem_mem hjb)
    rw [hin j hj, List.getElem?_eq_getElem hjb]
    simp [xorAssign_zero_key _ c hbyte hc]
  · rw [hout j (by omega)]

theorem decryptBuffer_zero_key_witness :
    (0xABCD00 &&& 0xFF = 0) ∧ IsBytes [0x41, 0x00, 0xFF] ∧ 3 < SIZE_RANGE
      ∧ 3 ≤ [0x41, 0x00, 0xFF].length ∧ 3 ≤ 3
      ∧ ∃ s, decryptBuffer 3 0xABCD00 [0x41, 0x00, 0xFF] 3 = .done s
          ∧ s.buf = [0x41, 0x00, 0xFF] :=
  ⟨by decide, by decide, by decide, by decide, by decide,
    decryptBuffer_zero_key 3 0xABCD00 [0x41, 0x00, 0xFF] 3
      (by decide) (by decide) (by decide) (by decide) (by decide)⟩

/-- C6: with `len = 0`, `decryptBuffer` returns under every budget (zero included), for
every chip identifier and every buffer, with the buffer as it was and an empty access
record: no byte is read or written. On the empty buffer the result is the empty
buffer. -/
theorem decryptBuffer_len_zero (fuel c : Nat) (buf : List Nat) :
    decryptBuffer fuel c buf 0 = .done { i := 0, buf := buf, accessed := [] }
      ∧ decryptBuffer fuel c [] 0 = .done { i := 0, buf := [], accessed := [] } :=
  ⟨loop_done _ 0 fuel _ (Nat.lt_irrefl 0), loop_done _ 0 fuel _ (Nat.lt_irrefl 0)⟩

/-- C7: for every buffer, every `len` within the buffer (a `size_t` value) and every chip
identifier, `decryptBuffer` returns as soon as the budget allows `len` iterations, and
under no smaller budget: it neither faults nor runs on. The counter ends at `len`; the
indices accessed are exactly `0, 1, .., len-1` in this order, `len` of them; each is
below `len`, inside the buffer, and its increment does not wrap. -/
theorem decryptBuffer_total (fuel c : Nat) (buf : List Nat) (len : Nat)
    (hlen : len < SIZE_RANGE) (hb : len ≤ buf.length) (hf : len ≤ fuel) :
    (∃ s, decryptBuffer fuel c buf len = .done s
        ∧ s.i = len
        ∧ s.accessed = List.range len
        ∧ s.accessed.length = len
        ∧ ∀ j ∈ s.accessed, j < len ∧ j < buf.length ∧ (j + 1) % SIZE_RANGE = j + 1)
      ∧ (∀ j, decryptBuffer fuel c buf len ≠ .outOfBounds j)
      ∧ decryptBuffer fuel c buf len ≠ .outOfFuel
      ∧ (∀ fuel2, fuel2 < len → decryptBuffer fuel2 c buf len = .outOfFuel) := by
  obtain ⟨out, hrun, _⟩ := decryptBuffer_spec fuel c buf len hlen hb hf
  refine ⟨⟨_, hrun, rfl, rfl, List.length_range len, ?_⟩, ?_, ?_, ?_⟩
  · intro j hj
    have hjl : j < len := List.mem_range.mp hj
    exact ⟨hjl, by omega, Nat.mod_eq_of_lt (by omega)⟩
  · intro j h
    rw [hrun] at h
    cases h
  · intro h
    rw [hrun] at h
    cases h
  · intro fuel2 h2
    exact decryptBuffer_short fuel2 c buf len hlen hb h2

theorem decryptBuffer_total_witness :
    3 < SIZE_RANGE ∧ 3 ≤ [0x41, 0x42, 0x43, 0x44].length ∧ 3 ≤ 3
      ∧ (∃ s, decryptBuffer 3 0x1234 [0x41, 0x42, 0x43, 0x44] 3 = .done s
          ∧ s.i = 3
          ∧ s.accessed = List.range 3
          ∧ s.accessed.length = 3
          ∧ ∀ j ∈ s.accessed, j < 3 ∧ j < [0x41, 0x42, 0x43, 0x44].length
              ∧ (j + 1) % SIZE_RANGE = j + 1)
      ∧ (∀ j, decryptBuffer 3 0x1234 [0x41, 0x42, 0x43, 0x44] 3 ≠ .outOfBounds j)
      ∧ decryptBuffer 3 0x1234 [0x41, 0x42, 0x43, 0x44] 3 ≠ .outOfFuel
      ∧ (∀ fuel2, fuel2 < 3 →
          decryptBuffer fuel2 0x1234 [0x41, 0x42, 0x43, 0x44] 3 = .outOfFuel) :=
  ⟨by decide, by decide, by decide,
    decryptBuffer_total 3 0x1234 [0x41, 0x42, 0x43, 0x44] 3
      (by decide) (by decide) (by decide)⟩

/-- C8: for every chip identifier whose low 8 bits are `0xFF` and every budget of at least
3 iterations, `decryptBuffer` on the buffer `[0x41, 0x42, 0x43]` with `len = 3` returns
with the buffer `[0xBE, 0xBD, 0xBC]`. -/
theorem decryptBuffer_case_41_42_43 (fuel c : Nat) (hc : c &&& 0xFF = 0xFF)
    (hf : 3 ≤ fuel) :
    decryptBuffer fuel c [0x41, 0x42, 0x43] 3
      = .done { i := 3, buf := [0xBE, 0xBD, 0xBC], accessed := [0, 1, 2] } := by
  have h3 : decryptBuffer 3 0xFF [0x41, 0x42, 0x43] 3
      = .done { i := 3, buf := [0xBE, 0xBD, 0xBC], accessed := [0, 1, 2] } := by decide
  rw [decryptBuffer_congr fuel c 0xFF _ 3 (by rw [hc]; decide)]
  exact decryptBuffer_fuel_mono 3 fuel 0xFF _ 3 _ h3 hf

theorem decryptBuffer_case_41_42_43_witness :
    (0x00E1A2FF &&& 0xFF = 0xFF) ∧ 3 ≤ 7
      ∧ decryptBuffer 7 0x00E1A2FF [0x41, 0x42, 0x43] 3
          = .done { i := 3, buf := [0xBE, 0xBD, 0xBC], accessed := [0, 1, 2] } :=
  ⟨by decide, by decide,
    decryptBuffer_case_41_42_43 7 0x00E1A2FF (by decide) (by decide)⟩

/-- C9: for every chip identifier whose low 8 bits are `0x0F` and every budget of at least
2 iterations, `decryptBuffer` on the buffer `[0x00, 0xFF]` with `len = 2` returns with
the buffer `[0x0F, 0xF0]`. -/
theorem decryptBuffer_case_00_FF (fuel c : Nat) (hc : c &&& 0xFF = 0x0F)
    (hf : 2 ≤ fuel) :
    decryptBuffer fuel c [0x00, 0xFF] 2
      = .done { i := 2, buf := [0x0F, 0xF0], accessed := [0, 1] } := by
  have h2 : decryptBuffer 2 0x0F [0x00, 0xFF] 2
      = .done { i := 2, buf := [0x0F, 0xF0], accessed := [0, 1] } := by decide
  rw [decryptBuffer_congr fuel c 0x0F _ 2 (by rw [hc]; decide)]
  exact decryptBuffer_fuel_mono 2 fuel 0x0F _ 2 _ h2 hf

theorem decryptBuffer_case_00_FF_witness :
    (0x00E1A20F &&& 0xFF = 0x0F) ∧ 2 ≤ 2
      ∧ decryptBuffer 2 0x00E1A20F [0x00, 0xFF] 2
          = .done { i := 2, buf := [0x0F, 0xF0], accessed := [0, 1] } :=
  ⟨by decide, by decide,
    decryptBuffer_case_00_FF 2 0x00E1A20F (by decide) (by decide)⟩

/-- C10: there are a buffer of bytes and two 32-bit chip identifiers with different low
8 bits such that `decryptBuffer` over the whole buffer with the first and then with the
second (each under every budget of at least the length) returns both times and leaves a
buffer different from the original. -/
theorem decryptBuffer_other_key_no_restore :
    ∃ (buf : List Nat) (c1 c2 : Nat) (s1 s2 : LoopState),
      IsBytes buf ∧ c1 < UINT32_RANGE ∧ c2 < UINT32_RANGE
        ∧ c2 &&& 0xFF ≠ c1 &&& 0xFF
        ∧ (∀ fuel, buf.length ≤ fuel → decryptBuffer fuel c1 buf buf.length = .done s1)
        ∧ (∀ fuel, buf.length ≤ fuel → decryptBuffer fuel c2 s1.buf buf.length = .done s2)
        ∧ s2.buf ≠ buf :=
  ⟨[0x41], 0xFF, 0x0F, { i := 1, buf := [0xBE], accessed := [0] },
    { i := 1, buf := [0xB1], accessed := [0] },
    by decide, by decide, by decide, by decide,
    fun fuel hf => decryptBuffer_fuel_mono 1 fuel 0xFF [0x41] 1 _ (by decide) hf,
    fun fuel hf => decryptBuffer_fuel_mono 1 fuel 0x0F [0xBE] 1 _ (by decide) hf,
    by decide⟩

/-- C11: for a length within the buffer (smaller than its size or equal to it) and a
budget of at least `len` iterations, `decryptBuffer` returns with every byte at an index
`j >= len` as it was, every accessed index below `len`, and, when further memory `rest`
follows the buffer, that memory as it was: the run on `buf ++ rest` ends in the state of
the run on `buf` with `rest` appended untouched. -/
theorem decryptBuffer_frame (fuel c : Nat) (buf rest : List Nat) (len : Nat)
    (hlen : len < SIZE_RANGE) (hb : len ≤ buf.length) (hf : len ≤ fuel) :
    ∃ s, decryptBuffer fuel c buf len = .done s
      ∧ (∀ j, len ≤ j → s.buf[j]? = buf[j]?)
      ∧ s.buf.drop len = buf.drop len
      ∧ (∀ j ∈ s.accessed, j < len)
      ∧ decryptBuffer fuel c (buf ++ rest) len
          = .done { i := s.i, buf := s.buf ++ rest, accessed := s.accessed } := by
  obtain ⟨out, hrun, hl, hin, hout⟩ := decryptBuffer_spec fuel c buf len hlen hb hf
  obtain ⟨out2, hrun2, hl2, hin2, hout2⟩ :=
    decryptBuffer_spec fuel c (buf ++ rest) len hlen
      (by rw [List.length_append]; omega) hf
  refine ⟨_, hrun, hout, ?_, fun j hj => List.mem_range.mp hj, ?_⟩
  · apply List.ext_getElem?
    intro j
    simp only [List.getElem?_drop]
    exact hout (len + j) (by omega)
  · rw [hrun2]
    have e : out2 = out ++ rest := by
      apply List.ext_getElem?
      intro j
      by_cases hjb : j < buf.length
      · rw [List.getElem?_append_left (by omega)]
        by_cases hj : j < len
        · rw [hin2 j hj, hin j hj, List.getElem?_append_left hjb]
        · rw [hout2 j (by omega), hout j (by omega), List.getElem?_append_left hjb]
      · rw [hout2 j (by omega), List.getElem?_append_right (by omega),
          List.getElem?_append_right (by omega), hl]
    rw [e]

theorem decryptBuffer_frame_witness :
    2 < SIZE_RANGE ∧ 2 ≤ [0x41, 0x42, 0x43, 0x44].length ∧ 2 ≤ 2
      ∧ ∃ s, decryptBuffer 2 0xFF [0x41, 0x42, 0x43, 0x44] 2 = .done s
          ∧ (∀ j, 2 ≤ j → s.buf[j]? = [0x41, 0x42, 0x43, 0x44][j]?)
          ∧ s.buf.drop 2 = [0x41, 0x42, 0x43, 0x44].drop 2
          ∧ (∀ j ∈ s.accessed, j < 2)
          ∧ decryptBuffer 2 0xFF ([0x41, 0x42, 0x43, 0x44] ++ [0x99, 0x98]) 2
              = .done { i := s.i, buf := s.buf ++ [0x99, 0x98], accessed := s.accessed } :=
  ⟨by decide, by decide, by decide,
    decryptBuffer_frame 2 0xFF [0x41, 0x42, 0x43, 0x44] [0x99, 0x98] 2
      (by decide) (by decide) (by decide)⟩

/-- C12: on a buffer of bytes, for a length within the buffer and budgets of at least
`len` iterations, running `decryptBuffer` with chip identifier `c1` and then with `c2`
ends in the same state as one run with any chip identifier `c3` whose 8-bit key is the
XOR of the two 8-bit keys (`c1 XOR c2` is one such); and running with `c2` first and
`c1` second ends in that same state too. -/
theorem decryptBuffer_compose (fuel1 fuel2 fuel3 c1 c2 c3 : Nat) (buf : List Nat)
    (len : Nat) (hc3 : c3 &&& 0xFF = (c1 &&& 0xFF) ^^^ (c2 &&& 0xFF))
    (hbytes : IsBytes buf) (hlen : len < SIZE_RANGE) (hb : len ≤ buf.length)
    (hf1 : len ≤ fuel1) (hf2 : len ≤ fuel2) (hf3 : len ≤ fuel3) :
    (c1 ^^^ c2) &&& 0xFF = (c1 &&& 0xFF) ^^^ (c2 &&& 0xFF)
      ∧ ∃ s1 s2 t1, decryptBuffer fuel1 c1 buf len = .done s1
          ∧ decryptBuffer fuel2 c2 s1.buf len = .done s2
          ∧ decryptBuffer fuel3 c3 buf len = .done s2
          ∧ decryptBuffer fuel1 c2 buf len = .done t1
          ∧ decryptBuffer fuel2 c1 t1.buf len = .done s2 := by
  obtain ⟨out1, out2, hrun1, hrun2, _, hin12, hout12⟩ :=
    decryptBuffer_twice_spec fuel1 fuel2 c1 c2 buf len hlen hb hf1 hf2
  obtain ⟨out3, hrun3, _, hin3, hout3⟩ := decryptBuffer_spec fuel3 c3 buf len hlen hb hf3
  obtain ⟨outA, outB, hrunA, hrunB, _, hinAB, houtAB⟩ :=
    decryptBuffer_twice_spec fuel1 fuel2 c2 c1 buf len hlen hb hf1 hf2
  have hc3x : c3 &&& 0xFF = (c1 ^^^ c2) &&& 0xFF := by rw [hc3, and_ff_xor]
  have e3 : out3 = out2 := by
    apply List.ext_getElem?
    intro j
    by_cases hj : j < len
    · have hjb : j < buf.length := by omega
      have hbyte : buf[j] < UINT8_RANGE := hbytes _ (List.getElem_mem hjb)
      rw [hin3 j hj, hin12 j hj, List.getElem?_eq_getElem hjb]
      simp only [Option.map_some']
      rw [xorAssign_comp _ c1 c2 hbyte, xorAssign_congr _ c3 (c1 ^^^ c2) hc3x]
    · rw [hout3 j (by omega), hout12 j (by omega)]
  have eB : outB = out2 := by
    apply List.ext_getElem?
    intro j
    by_cases hj : j < len
    · have hjb : j < buf.length := by omega
      have hbyte : buf[j] < UINT8_RANGE := hbytes _ (List.getElem_mem hjb)
      rw [hinAB j hj, hin12 j hj, List.getElem?_eq_getElem hjb]
      simp only [Option.map_some']
      rw [xorAssign_comp _ c1 c2 hbyte, xorAssign_comp _ c2 c1 hbyte, Nat.xor_comm c2 c1]
    · rw [houtAB j (by omega), hout12 j (by omega)]
  refine ⟨and_ff_xor c1 c2, _, _, _, hrun1, hrun2, ?_, hrunA, ?_⟩
  · rw [hrun3, e3]
  · simp only []
    rw [hrunB, eB]

theorem decryptBuffer_compose_witness :
    (0xF0 &&& 0xFF = (0x3C &&& 0xFF) ^^^ (0xCC &&& 0xFF)) ∧ IsBytes [0x41, 0x00, 0xFF]
      ∧ 3 < SIZE_RANGE ∧ 3 ≤ [0x41, 0x00, 0xFF].length ∧ 3 ≤ 3 ∧ 3 ≤ 4 ∧ 3 ≤ 5
      ∧ (0x3C ^^^ 0xCC) &&& 0xFF = (0x3C &&& 0xFF) ^^^ (0xCC &&& 0xFF)
      ∧ ∃ s1 s2 t1, decryptBuffer 3 0x3C [0x41, 0x00, 0xFF] 3 = .done s1
          ∧ decryptBuffer 4 0xCC s1.buf 3 = .done s2
          ∧ decryptBuffer 5 0xF0 [0x41, 0x00, 0xFF] 3 = .done s2
          ∧ decryptBuffer 3 0xCC [0x41, 0x00, 0xFF] 3 = .done t1
          ∧ decryptBuffer 4 0x3C t1.buf 3 = .done s2 :=
  ⟨by decide, by decide, by decide, by decide, by decide, by decide, by decide,
    decryptBuffer_compose 3 4 5 0x3C 0xCC 0xF0 [0x41, 0x00, 0xFF] 3
      (by decide) (by decide) (by decide) (by decide) (by decide) (by decide) (by decide)⟩

/-- C13: on a buffer of bytes, for a length within the buffer and budgets of at least
`len` iterations, running `decryptBuffer` with chip identifier `c1` and then with `c2`
returns both times; when the two 8-bit keys differ the final buffer differs from the
original at every index `i < len`; and the final buffer is the original if and only if
`len = 0` or the two 8-bit keys are equal. -/
theorem decryptBuffer_other_key_sharp (fuel1 fuel2 c1 c2 : Nat) (buf : List Nat)
    (len : Nat) (hbytes : IsBytes buf) (hlen : len < SIZE_RANGE) (hb : len ≤ buf.length)
    (hf1 : len ≤ fuel1) (hf2 : len ≤ fuel2) :
    ∃ s1 s2, decryptBuffer fuel1 c1 buf len = .done s1
      ∧ decryptBuffer fuel2 c2 s1.buf len = .done s2
      ∧ (c1 &&& 0xFF ≠ c2 &&& 0xFF → ∀ i, i < len → s2.buf[i]? ≠ buf[i]?)
      ∧ (s2.buf = buf ↔ len = 0 ∨ c1 &&& 0xFF = c2 &&& 0xFF) := by
  obtain ⟨out1, out2, hrun1, hrun2, _, hin, hout⟩ :=
    decryptBuffer_twice_spec fuel1 fuel2 c1 c2 buf len hlen hb hf1 hf2
  have hat : ∀ i, i < len → ∃ b, b < UINT8_RANGE ∧ buf[i]? = some b
      ∧ out2[i]? = some (xorAssign (xorAssign b c1) c2) := by
    intro i hi
    have hib : i < buf.length := by omega
    refine ⟨buf[i], hbytes _ (List.getElem_mem hib), List.getElem?_eq_getElem hib, ?_⟩
    rw [hin i hi, List.getElem?_eq_getElem hib]
    rfl
  refine ⟨_, _, hrun1, hrun2, ?_, ?_⟩
  · intro hne i hi heq
    obtain ⟨b, hbyte, hbi, hoi⟩ := hat i hi
    simp only [] at heq
    rw [hbi, hoi] at heq
    exact hne ((xorAssign_twice_eq_iff b c1 c2 hbyte).mp (Option.some.inj heq))
  · simp only []
    constructor
    · intro heq
      by_cases h0 : len = 0
      · exact Or.inl h0
      · right
        obtain ⟨b, hbyte, hbi, hoi⟩ := hat 0 (by omega)
        rw [heq, hbi] at hoi
        exact (xorAssign_twice_eq_iff b c1 c2 hbyte).mp (Option.some.inj hoi).symm
    · intro h
      apply List.ext_getElem?
      intro j
      by_cases hj : j < len
      · obtain ⟨b, hbyte, hbi, hoi⟩ := hat j hj
        rcases h with h | h
        · omega
        · rw [hoi, hbi, (xorAssign_twice_eq_iff b c1 c2 hbyte).mpr h]
      · exact hout j (by omega)

theorem decryptBuffer_other_key_sharp_witness :
    IsBytes [0x41, 0x42] ∧ 2 < SIZE_RANGE ∧ 2 ≤ [0x41, 0x42].length ∧ 2 ≤ 2 ∧ 2 ≤ 3
      ∧ ∃ s1 s2, decryptBuffer 2 0x1FF [0x41, 0x42] 2 = .done s1
          ∧ decryptBuffer 3 0x20F s1.buf 2 = .done s2
          ∧ (0x1FF &&& 0xFF ≠ 0x20F &&& 0xFF →
              ∀ i, i < 2 → s2.buf[i]? ≠ [0x41, 0x42][i]?)
          ∧ (s2.buf = [0x41, 0x42] ↔ 2 = 0 ∨ 0x1FF &&& 0xFF = 0x20F &&& 0xFF) :=
  ⟨by decide, by decide, by decide, by decide, by decide,
    decryptBuffer_other_key_sharp 2 3 0x1FF 0x20F [0x41, 0x42] 2
      (by decide) (by decide) (by decide) (by decide) (by decide)⟩

/-- C14: for a fixed chip identifier, a fixed length `len` (a `size_t` value) and a budget
of at least `len` iterations, `decryptBuffer` is a bijection on the buffers of bytes of
each size `n >= len` (in particular `n = len`): it returns on every such buffer with a
buffer of bytes of the same size; two such buffers with the same final buffer are equal;
and every such buffer is the final buffer of a run on one of them. -/
theorem decryptBuffer_bijective (fuel c len : Nat) (hlen : len < SIZE_RANGE)
    (hf : len ≤ fuel) :
    (∀ buf, IsBytes buf → len ≤ buf.length →
        ∃ s, decryptBuffer fuel c buf len = .done s
          ∧ IsBytes s.buf ∧ s.buf.length = buf.length)
      ∧ (∀ buf1 buf2 s1 s2, IsBytes buf1 → IsBytes buf2 →
          len ≤ buf1.length → len ≤ buf2.length →
          decryptBuffer fuel c buf1 len = .done s1 →
          decryptBuffer fuel c buf2 len = .done s2 →
          s1.buf = s2.buf → buf1 = buf2)
      ∧ (∀ out, IsBytes out → len ≤ out.length →
          ∃ buf s, IsBytes buf ∧ buf.length = out.length
            ∧ decryptBuffer fuel c buf len = .done s ∧ s.buf = out) := by
  refine ⟨?_, ?_, ?_⟩
  · intro buf hbytes hb
    obtain ⟨out, hrun, hl, hby⟩ := decryptBuffer_isBytes fuel c buf len hbytes hlen hb hf
    exact ⟨_, hrun, hby, hl⟩
  · intro buf1 buf2 s1 s2 hby1 hby2 hb1 hb2 hr1 hr2 heq
    obtain ⟨o1, hrun1, _, _, hback1⟩ :=
      decryptBuffer_twice_same fuel fuel c buf1 len hby1 hlen hb1 hf hf
    obtain ⟨o2, hrun2, _, _, hback2⟩ :=
      decryptBuffer_twice_same fuel fuel c buf2 len hby2 hlen hb2 hf hf
    have e1 : s1.buf = o1 := by
      rw [hr1] at hrun1
      injection hrun1 with h
      rw [h]
    have e2 : s2.buf = o2 := by
      rw [hr2] at hrun2
      injection hrun2 with h
      rw [h]
    have e : o1 = o2 := by rw [← e1, ← e2, heq]
    rw [e, hback2] at hback1
    injection hback1 with h
    injection h with _ h _
    exact h.symm
  · intro out hby hb
    obtain ⟨o, _, hl, hbyo, hback⟩ :=
      decryptBuffer_twice_same fuel fuel c out len hby hlen hb hf hf
    exact ⟨o, _, hbyo, hl, hback, rfl⟩

theorem decryptBuffer_bijective_witness :
    2 < SIZE_RANGE ∧ 2 ≤ 2
      ∧ (∀ buf, IsBytes buf → 2 ≤ buf.length →
          ∃ s, decryptBuffer 2 0xA5 buf 2 = .done s
            ∧ IsBytes s.buf ∧ s.buf.length = buf.length)
      ∧ (∀ buf1 buf2 s1 s2, IsBytes buf1 → IsBytes buf2 →
          2 ≤ buf1.length → 2 ≤ buf2.length →
          decryptBuffer 2 0xA5 buf1 2 = .done s1 →
          decryptBuffer 2 0xA5 buf2 2 = .done s2 →
          s1.buf = s2.buf → buf1 = buf2)
      ∧ (∀ out, IsBytes out → 2 ≤ out.length →
          ∃ buf s, IsBytes buf ∧ buf.length = out.length
            ∧ decryptBuffer 2 0xA5 buf 2 = .done s ∧ s.buf = out) :=
  ⟨by decide, by decide, decryptBuffer_bijective 2 0xA5 2 (by decide) (by decide)⟩

end Crypto
